import Mathlib

/-!
Verification of the loan-word extraction and phoneme-conversion pipeline
(`generate_espeak-ng_import.py`). Python strings are modelled as lists of
unicode scalar values (`List Char`); Python's `str.replace`, `str.find`,
`str.split(' ')`, `str.join` and slicing are modelled by the executable
functions below. The external `KirshenbaumMapper.map_unicode_string` call
(ipapy library, `ignore=False`, `return_as_list=True`) is modelled as an
abstract function `Str → Option (List Str)` returning `none` exactly when
the library raises `ValueError`.
-/

namespace EspeakNG

abbrev Str := List Char

/-- Worker for `replaceAll`, structurally recursive on a fuel argument so
that the kernel can evaluate it; the fuel never runs out when it starts at
the length of the scanned list. -/
def replaceAllGo (p r : Str) : Nat → Str → Str
  | _, [] => []
  | 0, l => l
  | n + 1, c :: rest =>
    if p ≠ [] ∧ p.isPrefixOf (c :: rest) then
      r ++ replaceAllGo p r n (rest.drop (p.length - 1))
    else
      c :: replaceAllGo p r n rest

/-- Python `s.replace(p, r)`: scans left to right, replaces each
non-overlapping occurrence of `p` by `r`, and continues scanning after the
inserted replacement (the replacement text itself is not rescanned). Every
call site in the program has a nonempty pattern `p`; for `p = []` this
definition returns the input unchanged. -/
def replaceAll (p r l : Str) : Str :=
  replaceAllGo p r l.length l

/-- An ordered correction table, applied sequentially: each replacement acts
on the result of the previous one. -/
def applyTable (t : List (Str × Str)) (s : Str) : Str :=
  t.foldl (fun acc pr => replaceAll pr.1 pr.2 acc) s

/-- Python `s.find(sub)`: index of the leftmost occurrence of `sub` in `s`,
as `some i`; `none` models the return value `-1`. -/
def firstIdx (l sub : Str) : Option Nat :=
  if sub.isPrefixOf l then some 0
  else
    match l with
    | [] => none
    | _ :: rest => (firstIdx rest sub).map (· + 1)

/-- Python `s.split(' ')`: split on every single space; consecutive spaces
produce empty tokens, and the empty string yields `[""]`. -/
def splitSp : Str → List Str
  | [] => [[]]
  | c :: rest =>
    if c = ' ' then [] :: splitSp rest
    else
      match splitSp rest with
      | s :: ss => (c :: s) :: ss
      | [] => [[c]]

/-- Python `sep.join(xs)`. -/
def joinSep (sep : Str) (xs : List Str) : Str :=
  List.intercalate sep xs

/-- Python `str.lower()`, restricted to the ASCII letters plus the German
umlauts that can occur in the titles handled by this program. -/
def pyLower (c : Char) : Char :=
  if c = 'Ä' then 'ä'
  else if c = 'Ö' then 'ö'
  else if c = 'Ü' then 'ü'
  else c.toLower

/-- The ordered replacement table of `_ipa_code_corrections` (source lines
118-141), with the exact code points of the source file. -/
def ipaTable : List (Str × Str) :=
  [ (['a', 'ː', 'ɐ', '̯'], ['ɑ', 'ː', 'ɾ']),
    (['ɐ'], ['ɜ']),
    (['i', '̯'], ['i']),
    (['ʁ'], ['ɾ']),
    (['ɜ', '̯'], ['a']),
    (['ʊ', '̯'], ['ʊ']),
    (['o', '̯'], ['o']),
    (['ɪ', '̯'], ['ɪ']),
    (['y', '̯'], ['y']),
    (['y', '̑'], ['y']),
    (['ˑ'], ['ː']),
    (['-'], []),
    (['‿'], ['ː']),
    (['͡'], ['ː']),
    (['(', 'ː', ')'], ['ː']),
    (['(', 'r', ')'], ['r']),
    (['(', 'ə', ')'], ['ə']),
    (['õ'], ['ɔ']),
    (['ɔ', '̃'], ['ɔ']),
    (['ā'], ['e', 'i']),
    (['a', '͂'], ['ɔ']),
    (['i', '̊'], ['i']),
    (['e', '̝'], ['e']),
    (['r', '̺'], ['ɾ']) ]

/-- `_ipa_code_corrections`: the Phonetic Symbol Corrector, a chain of 24
global literal replacements applied in order. -/
def ipa_code_corrections (ipa_code : Str) : Str :=
  applyTable ipaTable ipa_code

/-- The ordered replacement table of `_espeak_code_corrections` (source
lines 155-164). The last entry turns every space into the word-break
marker `||`. -/
def espeakTable : List (Str × Str) :=
  [ (['Y'], ['Y', ':']),
    (['V', '"'], ['@', 'r']),
    (['V'], ['@']),
    (['#'], [' ']),
    (['&'], ['E']),
    (['<', 't', 'r', 'l', '>'], []),
    (['<', 'o', '>'], []),
    (['.'], []),
    (['E', '~'], ['W']),
    ([' '], ['|', '|']) ]

/-- `_espeak_code_corrections`: the Target Encoding Corrector. -/
def espeak_code_corrections (espeak_code : Str) : Str :=
  applyTable espeakTable espeak_code

/-! ### Entry extraction (`extract_loan_words`) -/

/-- The literal pronunciation-section marker matched by
`REGEX_SECTION_LABEL_PRONOUNCIATION` (the regex contains only escaped
literal characters). -/
def PRON_MARKER : Str := "\x7b\x7bAussprache\x7d\x7d".toList

/-- The constant `ATTRIBUTE_IPA` of the source. -/
def ATTRIBUTE_IPA : Str := ":\x7b\x7bIPA\x7d\x7d \x7b\x7bLautschrift|".toList

/-- The closing marker terminating the transcription. -/
def CLOSER : Str := "\x7d\x7d".toList

/-- Literal head of `REGEX_SECTION_LABEL_CATEGORY_LOAN_WORD` before the
capture group `(.+)`. -/
def CATPRE : Str := "[[Kategorie:Entlehnung aus dem ".toList

/-- Literal tail of `REGEX_SECTION_LABEL_CATEGORY_LOAN_WORD` after the
capture group. -/
def CATSUF : Str := " (Deutsch)]]".toList

/-- Match of the category regex starting right after `CATPRE`: the greedy
capture `(.+)` takes the longest nonempty newline-free prefix of `rest`
that is immediately followed by `CATSUF`. -/
def catMatchAt (rest : Str) : Option Str :=
  let stop := (firstIdx rest ['\n']).getD rest.length
  ((List.range (stop + 1)).reverse.find?
      (fun j => decide (1 ≤ j) && CATSUF.isPrefixOf (rest.drop j))).map
    (fun j => rest.take j)

/-- `REGEX_SECTION_LABEL_CATEGORY_LOAN_WORD.search(raw)`: leftmost match of
the pattern `\[\[Kategorie:Entlehnung aus dem (.+) \(Deutsch\)\]\]`, with
the greedy capture group returned (`groups()[0]`). -/
def categorySearch (raw : Str) : Option Str :=
  ((List.range raw.length).find?
      (fun i =>
        CATPRE.isPrefixOf (raw.drop i) &&
          (catMatchAt (raw.drop (i + CATPRE.length))).isSome)).bind
    (fun i => catMatchAt (raw.drop (i + CATPRE.length)))

/-- Source lines 62-69: the transcription. If the pronunciation marker is
present anywhere in the body, `ATTRIBUTE_IPA` is searched from the start of
the whole body (`raw_text.find`); on a hit the transcription runs up to the
next `CLOSER`. A missing `CLOSER` makes Python compute the empty slice
`raw[start:start-1]`, modelled by the `none` branch. -/
def extractIpa (raw : Str) : Str :=
  if (firstIdx raw PRON_MARKER).isSome then
    match firstIdx raw ATTRIBUTE_IPA with
    | none => []
    | some i =>
      let rest := raw.drop (i + ATTRIBUTE_IPA.length)
      match firstIdx rest CLOSER with
      | none => []
      | some k => rest.take k
  else []

/-- An entry record (dict with keys `label`, `category_loan_word`, `IPA`). -/
structure Term where
  label : Str
  category_loan_word : Str
  IPA : Str
deriving DecidableEq, Repr

/-- An issue record (3-element list `[loan_word, IPA_code, status]`). -/
structure Issue where
  loan_word : Str
  IPA_code : Str
  status : Str
deriving DecidableEq, Repr

/-- A page node of the input document: a title and an optional body text. -/
structure Page where
  title : Str
  body : Option Str
deriving DecidableEq, Repr

/-- Processing of a single page inside the loop of `extract_loan_words`
(source lines 43-104). Returns the optional emitted entry record, the list
of issue records appended for this page, and the updated duplicate set
`idx_list` (modelled as an explicit list threaded through). -/
def processPage (seen : List Str) (title : Str) (body : Option Str) :
    Option Term × List Issue × List Str :=
  match body with
  | none => (none, [], seen)
  | some raw =>
    match categorySearch raw with
    | none => (none, [], seen)
    | some lang =>
      let label_list := splitSp (title.map pyLower)
      let category_loan_word := (lang.take (lang.length - 2)).map pyLower
      let ipa_code := extractIpa raw
      if 4 < label_list.length then
        (none, [⟨joinSep [' '] label_list, ipa_code, "excluded".toList⟩], seen)
      else
        let ipa_code_list := if ipa_code = [] then [] else splitSp ipa_code
        let label := joinSep [' '] label_list
        let issues :=
          if 1 < label_list.length ∧ 0 < ipa_code_list.length ∧
              ipa_code_list.length < label_list.length then
            [⟨label, joinSep ['|', '|'] ipa_code_list, "included".toList⟩]
          else []
        let wrapped := if 1 < label_list.length then '(' :: (label ++ [')']) else label
        if wrapped ∈ seen then (none, issues, seen)
        else (some ⟨wrapped, category_loan_word, ipa_code⟩, issues, wrapped :: seen)

/-- One fold step of `extract_loan_words` over the page sequence: append
the emitted entry record (if any) and the issue records, and carry the
updated duplicate set. -/
def extractStep (acc : List Term × List Issue × List Str) (pg : Page) :
    List Term × List Issue × List Str :=
  (acc.1 ++ (processPage acc.2.2 pg.title pg.body).1.toList,
   acc.2.1 ++ (processPage acc.2.2 pg.title pg.body).2.1,
   (processPage acc.2.2 pg.title pg.body).2.2)

/-- `extract_loan_words`, with the global duplicate set `idx_list` made an
explicit parameter (`seen0`; the program starts with the empty set). -/
def extract_loan_words (pages : List Page) (seen0 : List Str) :
    List Term × List Issue × List Str :=
  pages.foldl extractStep ([], [], seen0)

/-! ### Conversion and the writer loop -/

/-- The abstract Alphabet Mapper: `none` models a raised `ValueError`. -/
abbrev Mapper := Str → Option (List Str)

/-- `convert_ipa_2_espeak_phoneme` (source lines 167-200): correct the IPA
code, map it, join the symbol list and apply the espeak corrections; a mapper
failure is caught and yields the sentinel `"failed"`. -/
def convert_ipa_2_espeak_phoneme (mapper : Mapper) (ipa_code : Str)
    (correct_phonemes : Bool := true) : Str :=
  let ipa := if correct_phonemes then ipa_code_corrections ipa_code else ipa_code
  match mapper ipa with
  | none => "failed".toList
  | some km_list => espeak_code_corrections km_list.flatten

/-- The body of the writer loop (source lines 234-243) for one entry
record: returns the optional primary-output line `(label, encoded)` and
the issue records appended for this entry. -/
def writeTerm (mapper : Mapper) (t : Term) : Option (Str × Str) × List Issue :=
  let converted := convert_ipa_2_espeak_phoneme mapper t.IPA
  if converted = [] then
    (none, [⟨t.label, "not available".toList, "excluded".toList⟩])
  else if converted = "failed".toList then
    (none, [⟨t.label, t.IPA, "excluded".toList⟩])
  else
    (some (t.label, espeak_code_corrections converted), [])

/-! ### Lemmas about `replaceAll` and `applyTable` -/

theorem mem_of_isPrefixOf {p l : Str} (h : p.isPrefixOf l) {a : Char} (ha : a ∈ p) :
    a ∈ l := by
  induction p generalizing l with
  | nil => cases ha
  | cons b bs ih =>
    cases l with
    | nil => simp [List.isPrefixOf] at h
    | cons c cs =>
      simp only [List.isPrefixOf, Bool.and_eq_true, beq_iff_eq] at h
      cases ha with
      | head => exact h.1 ▸ List.mem_cons_self _ _
      | tail _ ha => exact List.mem_cons_of_mem _ (ih h.2 ha)

theorem mem_replaceAllGo {p r : Str} {c : Char} :
    ∀ (n : Nat) {l : Str}, c ∈ replaceAllGo p r n l → c ∈ l ∨ c ∈ r := by
  intro n
  induction n with
  | zero =>
    intro l h
    cases l with
    | nil => simp [replaceAllGo] at h
    | cons d rest => exact Or.inl (by simpa [replaceAllGo] using h)
  | succ m ih =>
    intro l h
    cases l with
    | nil => simp [replaceAllGo] at h
    | cons d rest =>
      simp only [replaceAllGo] at h
      split at h
      · rcases List.mem_append.mp h with hr | hrec
        · exact Or.inr hr
        · rcases ih hrec with hl | hr
          · exact Or.inl (List.mem_cons_of_mem _ ((List.drop_sublist _ _).subset hl))
          · exact Or.inr hr
      · rcases List.mem_cons.mp h with rfl | h2
        · exact Or.inl (List.mem_cons_self _ _)
        · rcases ih h2 with hl | hr
          · exact Or.inl (List.mem_cons_of_mem _ hl)
          · exact Or.inr hr

theorem mem_replaceAll {p r l : Str} {c : Char} (h : c ∈ replaceAll p r l) :
    c ∈ l ∨ c ∈ r :=
  mem_replaceAllGo _ h

theorem replaceAllGo_id {p r : Str} {a : Char} (ha : a ∈ p) :
    ∀ (n : Nat) {l : Str}, a ∉ l → replaceAllGo p r n l = l := by
  intro n
  induction n with
  | zero => intro l _; cases l <;> simp [replaceAllGo]
  | succ m ih =>
    intro l hl
    cases l with
    | nil => simp [replaceAllGo]
    | cons d rest =>
      have hcond : ¬(p ≠ [] ∧ p.isPrefixOf (d :: rest) = true) :=
        fun hcon => hl (mem_of_isPrefixOf hcon.2 ha)
      simp only [replaceAllGo]
      rw [if_neg hcond, ih (fun h => hl (List.mem_cons_of_mem _ h))]

theorem replaceAll_id {p r l : Str} {a : Char} (ha : a ∈ p) (hl : a ∉ l) :
    replaceAll p r l = l :=
  replaceAllGo_id ha _ hl

theorem not_mem_replaceAllGo_single {a : Char} {r : Str} (hr : a ∉ r) :
    ∀ (n : Nat) {l : Str}, l.length ≤ n → a ∉ replaceAllGo [a] r n l := by
  intro n
  induction n with
  | zero =>
    intro l hn
    have h0 : l = [] := List.eq_nil_of_length_eq_zero (Nat.le_zero.mp hn)
    subst h0
    simp [replaceAllGo]
  | succ m ih =>
    intro l hn
    cases l with
    | nil => simp [replaceAllGo]
    | cons d rest =>
      have hrest : rest.length ≤ m := by
        simp only [List.length_cons] at hn
        omega
      simp only [replaceAllGo]
      split
      · intro h
        rcases List.mem_append.mp h with h | h
        · exact hr h
        · have hd : List.drop (List.length [a] - 1) rest = rest := by simp
          rw [hd] at h
          exact ih hrest h
      · rename_i hcond
        intro h
        rcases List.mem_cons.mp h with rfl | h
        · exact hcond ⟨List.cons_ne_nil _ _, by simp [List.isPrefixOf]⟩
        · exact ih hrest h

theorem not_mem_replaceAll_single {a : Char} {r l : Str} (hr : a ∉ r) :
    a ∉ replaceAll [a] r l :=
  not_mem_replaceAllGo_single hr _ (Nat.le_refl _)

theorem applyTable_cons (pr : Str × Str) (t : List (Str × Str)) (s : Str) :
    applyTable (pr :: t) s = applyTable t (replaceAll pr.1 pr.2 s) := rfl

theorem applyTable_append (t1 t2 : List (Str × Str)) (s : Str) :
    applyTable (t1 ++ t2) s = applyTable t2 (applyTable t1 s) := by
  simp [applyTable, List.foldl_append]

theorem mem_applyTable {t : List (Str × Str)} {c : Char} :
    ∀ {s : Str}, c ∈ applyTable t s → c ∈ s ∨ ∃ pr ∈ t, c ∈ pr.2 := by
  induction t with
  | nil => intro s h; exact Or.inl h
  | cons pr rest ih =>
    intro s h
    rw [applyTable_cons] at h
    rcases ih h with h1 | h2
    · rcases mem_replaceAll h1 with h3 | h4
      · exact Or.inl h3
      · exact Or.inr ⟨pr, List.mem_cons_self _ _, h4⟩
    · rcases h2 with ⟨q, hq, hc⟩
      exact Or.inr ⟨q, List.mem_cons_of_mem _ hq, hc⟩

theorem notMem_applyTable {t : List (Str × Str)} {s : Str} {c : Char}
    (h1 : c ∉ s) (h2 : ∀ pr ∈ t, c ∉ pr.2) : c ∉ applyTable t s := by
  intro h
  rcases mem_applyTable h with h3 | ⟨pr, hpr, hc⟩
  · exact h1 h3
  · exact h2 pr hpr hc

theorem applyTable_fix {t : List (Str × Str)} {s : Str}
    (h : ∀ pr ∈ t, ∃ a ∈ pr.1, a ∉ s) : applyTable t s = s := by
  induction t with
  | nil => rfl
  | cons pr rest ih =>
    rcases h pr (List.mem_cons_self _ _) with ⟨a, ha, hs⟩
    rw [applyTable_cons, replaceAll_id ha hs]
    exact ih (fun q hq => h q (List.mem_cons_of_mem _ hq))

theorem notMem_applyTable_split {c : Char} {r : Str} {t1 t2 : List (Str × Str)}
    {s : Str} (hr : c ∉ r) (h2 : ∀ pr ∈ t2, c ∉ pr.2) :
    c ∉ applyTable (t1 ++ ([c], r) :: t2) s := by
  rw [applyTable_append, applyTable_cons]
  exact notMem_applyTable (not_mem_replaceAll_single hr) h2

/-- The character `ɐ` is eliminated by the second table entry and never
reintroduced by a later replacement. -/
theorem ipa_no_0250 (s : Str) : 'ɐ' ∉ ipa_code_corrections s := by
  have h : ipaTable = ipaTable.take 1 ++ (['ɐ'], ['ɜ']) :: ipaTable.drop 2 := rfl
  rw [ipa_code_corrections, h]
  exact notMem_applyTable_split (by decide) (by decide)

/-- The character `ʁ` is eliminated by the fourth table entry and never
reintroduced. -/
theorem ipa_no_0281 (s : Str) : 'ʁ' ∉ ipa_code_corrections s := by
  have h : ipaTable = ipaTable.take 3 ++ (['ʁ'], ['ɾ']) :: ipaTable.drop 4 := rfl
  rw [ipa_code_corrections, h]
  exact notMem_applyTable_split (by decide) (by decide)

/-- The character `ˑ` is eliminated by the eleventh table entry and never
reintroduced. -/
theorem ipa_no_02D1 (s : Str) : 'ˑ' ∉ ipa_code_corrections s := by
  have h : ipaTable = ipaTable.take 10 ++ (['ˑ'], ['ː']) :: ipaTable.drop 11 := rfl
  rw [ipa_code_corrections, h]
  exact notMem_applyTable_split (by decide) (by decide)

/-- The character `õ` is eliminated by the eighteenth table entry and never
reintroduced. -/
theorem ipa_no_00F5 (s : Str) : 'õ' ∉ ipa_code_corrections s := by
  have h : ipaTable = ipaTable.take 17 ++ (['õ'], ['ɔ']) :: ipaTable.drop 18 := rfl
  rw [ipa_code_corrections, h]
  exact notMem_applyTable_split (by decide) (by decide)

/-- The character `ā` is eliminated by the twentieth table entry and never
reintroduced. -/
theorem ipa_no_0101 (s : Str) : 'ā' ∉ ipa_code_corrections s := by
  have h : ipaTable = ipaTable.take 19 ++ (['ā'], ['e', 'i']) :: ipaTable.drop 20 := rfl
  rw [ipa_code_corrections, h]
  exact notMem_applyTable_split (by decide) (by decide)

/-- Characters whose presence in the input can make a table entry re-match
text produced by a later replacement: the deleted `-`, the two tie
characters replaced by `ː`, the parentheses, and the combining diacritics
appearing in the table patterns. -/
def ipaFragile : Str := ['-', '‿', '͡', '(', ')', '̯', '̑', '̃', '͂', '̊', '̝', '̺']

/-- C3 (amended): the Phonetic Symbol Corrector is idempotent on every
input that contains none of the characters in `ipaFragile`. -/
theorem ipa_code_corrections_idempotent (s : Str)
    (h : ∀ c ∈ ipaFragile, c ∉ s) :
    ipa_code_corrections (ipa_code_corrections s) = ipa_code_corrections s := by
  have houts : ∀ c ∈ ipaFragile, ∀ pr ∈ ipaTable, c ∉ pr.2 := by decide
  have hout : ∀ c ∈ ipaFragile, c ∉ ipa_code_corrections s := fun c hc =>
    notMem_applyTable (h c hc) (houts c hc)
  have h250 := ipa_no_0250 s
  have h281 := ipa_no_0281 s
  have h2D1 := ipa_no_02D1 s
  have hF5 := ipa_no_00F5 s
  have h101 := ipa_no_0101 s
  apply applyTable_fix
  intro pr hpr
  simp only [ipaTable, List.mem_cons, List.not_mem_nil, or_false] at hpr
  rcases hpr with rfl | rfl | rfl | rfl | rfl | rfl | rfl | rfl | rfl | rfl | rfl |
    rfl | rfl | rfl | rfl | rfl | rfl | rfl | rfl | rfl | rfl | rfl | rfl | rfl
  · exact ⟨'ɐ', by decide, h250⟩
  · exact ⟨'ɐ', by decide, h250⟩
  · exact ⟨'̯', by decide, hout '̯' (by decide)⟩
  · exact ⟨'ʁ', by decide, h281⟩
  · exact ⟨'̯', by decide, hout '̯' (by decide)⟩
  · exact ⟨'̯', by decide, hout '̯' (by decide)⟩
  · exact ⟨'̯', by decide, hout '̯' (by decide)⟩
  · exact ⟨'̯', by decide, hout '̯' (by decide)⟩
  · exact ⟨'̯', by decide, hout '̯' (by decide)⟩
  · exact ⟨'̑', by decide, hout '̑' (by decide)⟩
  · exact ⟨'ˑ', by decide, h2D1⟩
  · exact ⟨'-', by decide, hout '-' (by decide)⟩
  · exact ⟨'‿', by decide, hout '‿' (by decide)⟩
  · exact ⟨'͡', by decide, hout '͡' (by decide)⟩
  · exact ⟨'(', by decide, hout '(' (by decide)⟩
  · exact ⟨'(', by decide, hout '(' (by decide)⟩
  · exact ⟨'(', by decide, hout '(' (by decide)⟩
  · exact ⟨'õ', by decide, hF5⟩
  · exact ⟨'̃', by decide, hout '̃' (by decide)⟩
  · exact ⟨'ā', by decide, h101⟩
  · exact ⟨'͂', by decide, hout '͂' (by decide)⟩
  · exact ⟨'̊', by decide, hout '̊' (by decide)⟩
  · exact ⟨'̝', by decide, hout '̝' (by decide)⟩
  · exact ⟨'̺', by decide, hout '̺' (by decide)⟩

/-- C3 (witness): a concrete fragile-free transcription on which the
corrector is idempotent. -/
theorem ipa_code_corrections_idempotent_witness :
    (∀ c ∈ ipaFragile, c ∉ ("tiʁaˈmiːzu".toList : Str)) ∧
      ipa_code_corrections (ipa_code_corrections "tiʁaˈmiːzu".toList) =
        ipa_code_corrections "tiʁaˈmiːzu".toList :=
  ⟨by decide, ipa_code_corrections_idempotent "tiʁaˈmiːzu".toList (by decide)⟩

/-- C3 (counterexample): on `i-̯` (`i`, hyphen, combining inverted breve
below) the corrector is not idempotent: deleting the hyphen creates the
pattern `i̯`, which only a second run replaces. -/
theorem ipa_code_corrections_not_idempotent :
    ipa_code_corrections (ipa_code_corrections ['i', '-', '̯']) ≠
      ipa_code_corrections ['i', '-', '̯'] := by decide

/-- C7: the output of the Target Encoding Corrector never contains a
literal space: the final table entry replaces every space by `||`, and no
earlier-introduced space survives it. -/
theorem espeak_code_corrections_no_space (s : Str) :
    ' ' ∉ espeak_code_corrections s := by
  have h : espeakTable = espeakTable.take 9 ++ ([' '], ['|', '|']) :: [] := rfl
  rw [espeak_code_corrections, h]
  exact notMem_applyTable_split (by decide) (by decide)

/-! ### Lemmas about `firstIdx` -/

theorem firstIdx_some_iff {sub : Str} :
    ∀ {l : Str} {i : Nat},
      firstIdx l sub = some i ↔
        (sub.isPrefixOf (l.drop i) = true ∧
          ∀ j, j < i → ¬ sub.isPrefixOf (l.drop j) = true) := by
  intro l
  induction l with
  | nil =>
    intro i
    rw [firstIdx]
    split
    · rename_i hpre
      constructor
      · intro h
        injection h with h
        subst h
        exact ⟨by simpa using hpre, fun j hj => absurd hj (Nat.not_lt_zero j)⟩
      · rintro ⟨h1, h2⟩
        cases i with
        | zero => rfl
        | succ k => exact absurd (by simpa using hpre) (h2 0 (Nat.succ_pos k))
    · rename_i hpre
      constructor
      · intro h; cases h
      · rintro ⟨h1, h2⟩
        exact absurd (by simpa using h1) (by simpa using hpre)
  | cons c rest ih =>
    intro i
    rw [firstIdx]
    split
    · rename_i hpre
      constructor
      · intro h
        injection h with h
        subst h
        exact ⟨by simpa using hpre, fun j hj => absurd hj (Nat.not_lt_zero j)⟩
      · rintro ⟨h1, h2⟩
        cases i with
        | zero => rfl
        | succ k => exact absurd (by simpa using hpre) (h2 0 (Nat.succ_pos k))
    · rename_i hpre
      constructor
      · intro h
        rcases Option.map_eq_some'.mp h with ⟨i0, hi0, rfl⟩
        rcases ih.mp hi0 with ⟨h1, h2⟩
        refine ⟨by simpa using h1, ?_⟩
        intro j hj
        cases j with
        | zero => simpa using hpre
        | succ j0 =>
          have h3 := h2 j0 (by omega)
          simpa using h3
      · rintro ⟨h1, h2⟩
        cases i with
        | zero => exact absurd (by simpa using h1) (by simpa using hpre)
        | succ k =>
          have h3 : firstIdx rest sub = some k :=
            ih.mpr ⟨by simpa using h1,
              fun j hj => by simpa using h2 (j + 1) (by omega)⟩
          rw [h3]
          rfl

theorem firstIdx_isSome_iff {sub : Str} :
    ∀ {l : Str}, (firstIdx l sub).isSome = true ↔
      ∃ j, sub.isPrefixOf (l.drop j) = true := by
  intro l
  induction l with
  | nil =>
    rw [firstIdx]
    split
    · rename_i hpre
      simp only [Option.isSome_some, true_iff]
      exact ⟨0, by simpa using hpre⟩
    · rename_i hpre
      simp only [Option.isSome_none, Bool.false_eq_true, false_iff]
      rintro ⟨j, hj⟩
      exact hpre (by simpa using hj)
  | cons c rest ih =>
    rw [firstIdx]
    split
    · rename_i hpre
      simp only [Option.isSome_some, true_iff]
      exact ⟨0, by simpa using hpre⟩
    · rename_i hpre
      have hmap : (Option.map (fun x => x + 1) (firstIdx rest sub)).isSome =
          (firstIdx rest sub).isSome := by
        cases firstIdx rest sub <;> rfl
      rw [hmap, ih]
      constructor
      · rintro ⟨j, hj⟩
        exact ⟨j + 1, by simpa using hj⟩
      · rintro ⟨j, hj⟩
        cases j with
        | zero => exact absurd (by simpa using hj) hpre
        | succ j0 => exact ⟨j0, by simpa using hj⟩

/-- C10: when the pronunciation marker occurs anywhere in the body, the
extracted transcription is taken from the first occurrence of
`ATTRIBUTE_IPA` in the whole body — `i` below is the least index where the
attribute marker matches, and it may lie before the pronunciation marker —
and runs up to the next `}}` after that occurrence (least offset `k`). -/
theorem attribute_searched_from_start (raw : Str) (i k : Nat)
    (hpron : ∃ j, PRON_MARKER.isPrefixOf (raw.drop j) = true)
    (hattr : ATTRIBUTE_IPA.isPrefixOf (raw.drop i) = true)
    (hleast : ∀ j, j < i → ¬ ATTRIBUTE_IPA.isPrefixOf (raw.drop j) = true)
    (hclose : CLOSER.isPrefixOf ((raw.drop (i + ATTRIBUTE_IPA.length)).drop k) = true)
    (hcleast : ∀ j, j < k →
      ¬ CLOSER.isPrefixOf ((raw.drop (i + ATTRIBUTE_IPA.length)).drop j) = true) :
    extractIpa raw = (raw.drop (i + ATTRIBUTE_IPA.length)).take k := by
  have h1 : (firstIdx raw PRON_MARKER).isSome = true := firstIdx_isSome_iff.mpr hpron
  have h2 : firstIdx raw ATTRIBUTE_IPA = some i := firstIdx_some_iff.mpr ⟨hattr, hleast⟩
  have h3 : firstIdx (raw.drop (i + ATTRIBUTE_IPA.length)) CLOSER = some k :=
    firstIdx_some_iff.mpr ⟨hclose, hcleast⟩
  rw [extractIpa, if_pos h1, h2]
  simp [h3]

/-- C10 (witness): a body in which the attribute marker occurs before the
pronunciation marker; the transcription `abc` is still extracted from that
first occurrence. -/
theorem attribute_searched_from_start_witness :
    extractIpa (ATTRIBUTE_IPA ++ "abc".toList ++ CLOSER ++ PRON_MARKER) =
      ((ATTRIBUTE_IPA ++ "abc".toList ++ CLOSER ++ PRON_MARKER).drop
        (0 + ATTRIBUTE_IPA.length)).take 3 ∧
      ((ATTRIBUTE_IPA ++ "abc".toList ++ CLOSER ++ PRON_MARKER).drop
        (0 + ATTRIBUTE_IPA.length)).take 3 = "abc".toList :=
  ⟨attribute_searched_from_start _ 0 3 ⟨28, by decide⟩ (by decide) (by decide)
      (by decide) (by decide),
    by decide⟩

/-! ### Per-page behaviour of the extractor -/

/-- A concrete loan-word category marker used by the witnesses. -/
def catMarker : Str :=
  "[[Kategorie:Entlehnung aus dem Italienischen (Deutsch)]]".toList

/-- A loan-word page body with two-segment transcription `x y`. -/
def bodyXY : Str :=
  catMarker ++ PRON_MARKER ++ ATTRIBUTE_IPA ++ "x y".toList ++ CLOSER

/-- A loan-word page body with single-segment transcription `x`. -/
def bodyX : Str :=
  catMarker ++ PRON_MARKER ++ ATTRIBUTE_IPA ++ "x".toList ++ CLOSER

/-- C5: a loan-word page whose lowercased title splits into more than four
words produces no entry record; exactly one issue record with status
`excluded` is appended and the duplicate set is left unchanged. -/
theorem wordcount_guard_excludes (seen : List Str) (title raw lang : Str)
    (hcat : categorySearch raw = some lang)
    (hw : 4 < (splitSp (title.map pyLower)).length) :
    processPage seen title (some raw) =
      (none,
       [⟨joinSep [' '] (splitSp (title.map pyLower)), extractIpa raw,
         "excluded".toList⟩],
       seen) := by
  simp only [processPage, hcat]
  rw [if_pos hw]

/-- C5 (witness): a five-word title is excluded with a single `excluded`
issue row. -/
theorem wordcount_guard_excludes_witness :
    processPage [] "a b c d e".toList (some bodyXY) =
      (none, [⟨"a b c d e".toList, "x y".toList, "excluded".toList⟩], []) := by
  rw [wordcount_guard_excludes [] "a b c d e".toList bodyXY "Italienischen".toList
    (by decide) (by decide)]
  decide

/-- C2 (amended): for a loan-word page passing the word-count guard, with a
multiword title, a transcription having fewer (but not zero) segments than
the title has words, and a label not yet in the duplicate set, an entry
record carrying the unmodified transcription is produced and exactly one
issue record with status `included` and the `||`-joined segments as detail
is appended. -/
theorem segment_mismatch_soft_include (seen : List Str) (title raw lang : Str)
    (hcat : categorySearch raw = some lang)
    (hw1 : 1 < (splitSp (title.map pyLower)).length)
    (hw4 : ¬ 4 < (splitSp (title.map pyLower)).length)
    (hipa : extractIpa raw ≠ [])
    (hs1 : 0 < (splitSp (extractIpa raw)).length)
    (hs2 : (splitSp (extractIpa raw)).length < (splitSp (title.map pyLower)).length)
    (hdup : ('(' :: (joinSep [' '] (splitSp (title.map pyLower)) ++ [')'])) ∉ seen) :
    processPage seen title (some raw) =
      (some ⟨'(' :: (joinSep [' '] (splitSp (title.map pyLower)) ++ [')']),
             (lang.take (lang.length - 2)).map pyLower, extractIpa raw⟩,
       [⟨joinSep [' '] (splitSp (title.map pyLower)),
         joinSep ['|', '|'] (splitSp (extractIpa raw)), "included".toList⟩],
       ('(' :: (joinSep [' '] (splitSp (title.map pyLower)) ++ [')'])) :: seen) := by
  have hmis : 1 < (splitSp (title.map pyLower)).length ∧
      0 < (splitSp (extractIpa raw)).length ∧
      (splitSp (extractIpa raw)).length < (splitSp (title.map pyLower)).length :=
    ⟨hw1, hs1, hs2⟩
  simp only [processPage, hcat]
  rw [if_neg hw4, if_neg hipa, if_pos hmis, if_pos hw1, if_neg hdup]

/-- C2 (witness): the two-word page `A B` with one-segment transcription
`x` yields both an entry record with the unsplit transcription and one
`included` issue. -/
theorem segment_mismatch_soft_include_witness :
    processPage [] "A B".toList (some bodyX) =
      (some ⟨"(a b)".toList, "italienisch".toList, "x".toList⟩,
       [⟨"a b".toList, "x".toList, "included".toList⟩],
       ["(a b)".toList]) := by
  rw [segment_mismatch_soft_include [] "A B".toList bodyX "Italienischen".toList
    (by decide) (by decide) (by decide) (by decide) (by decide) (by decide)
    (by decide)]
  decide

/-- C2 (counterexample): a page satisfying the claim's conditions (multiword
title, segment count strictly between zero and the word count) for which NO
entry record is produced, because its label is already in the duplicate
set; only the `included` issue is appended. -/
theorem segment_mismatch_no_entry_for_duplicate :
    (1 < (splitSp ("A B".toList.map pyLower)).length ∧
        0 < (splitSp (extractIpa bodyX)).length ∧
        (splitSp (extractIpa bodyX)).length <
          (splitSp ("A B".toList.map pyLower)).length) ∧
      processPage ["(a b)".toList] "A B".toList (some bodyX) =
        (none, [⟨"a b".toList, "x".toList, "included".toList⟩],
          ["(a b)".toList]) := by
  decide

/-- C9: the segment-mismatch check runs before the duplicate-label check:
on a loan-word page passing the word-count guard whose multiword label is
already in the duplicate set and whose transcription has fewer (but not
zero) segments than words, the `included` issue is still appended although
no entry record is emitted and the duplicate set is unchanged. -/
theorem mismatch_issue_despite_duplicate (seen : List Str) (title raw lang : Str)
    (hcat : categorySearch raw = some lang)
    (hw1 : 1 < (splitSp (title.map pyLower)).length)
    (hw4 : ¬ 4 < (splitSp (title.map pyLower)).length)
    (hipa : extractIpa raw ≠ [])
    (hs1 : 0 < (splitSp (extractIpa raw)).length)
    (hs2 : (splitSp (extractIpa raw)).length < (splitSp (title.map pyLower)).length)
    (hdup : ('(' :: (joinSep [' '] (splitSp (title.map pyLower)) ++ [')'])) ∈ seen) :
    processPage seen title (some raw) =
      (none,
       [⟨joinSep [' '] (splitSp (title.map pyLower)),
         joinSep ['|', '|'] (splitSp (extractIpa raw)), "included".toList⟩],
       seen) := by
  have hmis : 1 < (splitSp (title.map pyLower)).length ∧
      0 < (splitSp (extractIpa raw)).length ∧
      (splitSp (extractIpa raw)).length < (splitSp (title.map pyLower)).length :=
    ⟨hw1, hs1, hs2⟩
  simp only [processPage, hcat]
  rw [if_neg hw4, if_neg hipa, if_pos hmis, if_pos hw1, if_pos hdup]

/-- C9 (witness): with `(a b)` already seen, the page `A B` with
transcription `x` appends the `included` issue but emits no entry. -/
theorem mismatch_issue_despite_duplicate_witness :
    processPage ["(a b)".toList] "A B".toList (some bodyX) =
      (none, [⟨"a b".toList, "x".toList, "included".toList⟩],
        ["(a b)".toList]) := by
  rw [mismatch_issue_despite_duplicate ["(a b)".toList] "A B".toList bodyX
    "Italienischen".toList (by decide) (by decide) (by decide) (by decide)
    (by decide) (by decide) (by decide)]
  decide

/-! ### The uniqueness invariant -/

/-- A page either emits no entry record and leaves the duplicate set
unchanged, or emits one whose label is fresh and gets added to the set. -/
theorem processPage_shape (seen : List Str) (title : Str) (body : Option Str) :
    ((processPage seen title body).1 = none ∧
        (processPage seen title body).2.2 = seen) ∨
      (∃ t, (processPage seen title body).1 = some t ∧ t.label ∉ seen ∧
        (processPage seen title body).2.2 = t.label :: seen) := by
  cases body with
  | none => exact Or.inl ⟨rfl, rfl⟩
  | some raw =>
    cases hcat : categorySearch raw with
    | none =>
      refine Or.inl ⟨?_, ?_⟩ <;> simp [processPage, hcat]
    | some lang =>
      simp only [processPage, hcat]
      by_cases h4 : 4 < (splitSp (title.map pyLower)).length
      · rw [if_pos h4]
        exact Or.inl ⟨rfl, rfl⟩
      · rw [if_neg h4]
        by_cases hmem :
            (if 1 < (splitSp (title.map pyLower)).length then
              '(' :: (joinSep [' '] (splitSp (title.map pyLower)) ++ [')'])
            else joinSep [' '] (splitSp (title.map pyLower))) ∈ seen
        · rw [if_pos hmem]
          exact Or.inl ⟨rfl, rfl⟩
        · rw [if_neg hmem]
          exact Or.inr ⟨_, rfl, hmem, rfl⟩

theorem extract_aux (pages : List Page) :
    ∀ (ts : List Term) (iss : List Issue) (seen : List Str),
      (ts.map Term.label).Nodup → (∀ t ∈ ts, t.label ∈ seen) →
      ((pages.foldl extractStep (ts, iss, seen)).1.map Term.label).Nodup := by
  induction pages with
  | nil => intro ts iss seen h1 _; simpa using h1
  | cons pg rest ih =>
    intro ts iss seen h1 h2
    rw [List.foldl_cons]
    rcases processPage_shape seen pg.title pg.body with ⟨hn, hs⟩ | ⟨t, hsome, hnot, hs⟩
    · have hstep : extractStep (ts, iss, seen) pg =
          (ts, iss ++ (processPage seen pg.title pg.body).2.1, seen) := by
        simp [extractStep, hn, hs]
      rw [hstep]
      exact ih ts _ seen h1 h2
    · have hstep : extractStep (ts, iss, seen) pg =
          (ts ++ [t], iss ++ (processPage seen pg.title pg.body).2.1,
            t.label :: seen) := by
        simp [extractStep, hsome, hs]
      rw [hstep]
      apply ih
      · rw [List.map_append, List.nodup_append]
        refine ⟨h1, by simp, ?_⟩
        intro x hx hx2
        simp only [List.map_cons, List.map_nil, List.mem_singleton] at hx2
        subst hx2
        rcases List.mem_map.mp hx with ⟨u, hu, hul⟩
        exact hnot (hul ▸ h2 u hu)
      · intro x hx
        rcases List.mem_append.mp hx with hx | hx
        · exact List.mem_cons_of_mem _ (h2 x hx)
        · simp only [List.mem_singleton] at hx
          subst hx
          exact List.mem_cons_self _ _

/-- C4: no two entry records returned by the extractor share a label, and
an entry record is only ever emitted for a label not yet in the duplicate
set (a later page yielding an already-seen label emits no entry record). -/
theorem extracted_labels_nodup (pages : List Page) (seen0 : List Str) :
    ((extract_loan_words pages seen0).1.map Term.label).Nodup ∧
      ∀ seen title body,
        (processPage seen title body).1 = none ∨
        ∃ t, (processPage seen title body).1 = some t ∧ t.label ∉ seen := by
  constructor
  · rw [extract_loan_words]
    exact extract_aux pages [] [] seen0 (by simp) (by simp)
  · intro seen title body
    rcases processPage_shape seen title body with ⟨hn, _⟩ | ⟨t, hsome, hnot, _⟩
    · exact Or.inl hn
    · exact Or.inr ⟨t, hsome, hnot⟩

/-! ### The writer loop -/

/-- Unfolding of the orchestrator at its default `correct_phonemes = true`. -/
theorem convert_eq (mapper : Mapper) (ipa : Str) :
    convert_ipa_2_espeak_phoneme mapper ipa =
      match mapper (ipa_code_corrections ipa) with
      | none => "failed".toList
      | some km_list => espeak_code_corrections km_list.flatten := rfl

/-- C1 (amended): for a successfully converted, non-excluded entry the
writer emits the label together with the Target Encoding Corrector applied
to the orchestrator's result — i.e. the corrector acts twice on the joined
mapper output, once inside the orchestrator and once more in the writer
loop. -/
theorem writer_applies_corrector_twice (mapper : Mapper) (t : Term) (L : List Str)
    (hm : mapper (ipa_code_corrections t.IPA) = some L)
    (hne : espeak_code_corrections L.flatten ≠ [])
    (hnf : espeak_code_corrections L.flatten ≠ "failed".toList) :
    writeTerm mapper t =
      (some (t.label, espeak_code_corrections (espeak_code_corrections L.flatten)),
        []) := by
  have hconv : convert_ipa_2_espeak_phoneme mapper t.IPA =
      espeak_code_corrections L.flatten := by
    rw [convert_eq, hm]
  simp only [writeTerm, hconv]
  rw [if_neg hne, if_neg hnf]

/-- A mapper used by the C1 material: it maps the (unchanged by the IPA
corrector) transcription `ø` to the single symbol sequence `Y`. -/
def mapperY : Mapper := fun s => if s = ['ø'] then some [['Y']] else none

/-- C1 (witness): the writer output on the `ø` entry, with the corrector
applied twice to the mapper output `Y`. -/
theorem writer_applies_corrector_twice_witness :
    writeTerm mapperY ⟨['x'], [], ['ø']⟩ =
      (some (['x'],
        espeak_code_corrections (espeak_code_corrections [['Y']].flatten)), []) ∧
      espeak_code_corrections (espeak_code_corrections [['Y']].flatten) =
        ['Y', ':', ':'] :=
  ⟨writer_applies_corrector_twice mapperY ⟨['x'], [], ['ø']⟩ [['Y']]
      (by decide) (by decide) (by decide),
    by decide⟩

/-- C1 (counterexample): with `mapperY`, the orchestrator's result on the
transcription `ø` is `Y:`, but the line written for the entry carries
`Y::` — the encoded string written to the primary output is NOT the
orchestrator's result, because the corrector is applied once more. -/
theorem written_output_ne_orchestrator_output :
    (writeTerm mapperY ⟨['x'], [], ['ø']⟩).1 = some (['x'], ['Y', ':', ':']) ∧
      convert_ipa_2_espeak_phoneme mapperY ['ø'] = ['Y', ':'] ∧
      (writeTerm mapperY ⟨['x'], [], ['ø']⟩).1 ≠
        some (['x'], convert_ipa_2_espeak_phoneme mapperY ['ø']) := by
  refine ⟨by decide, by decide, by decide⟩

/-- C6: when the mapper fails on the corrected transcription, the
orchestrator returns the sentinel `failed`; the writer then emits no
primary-output line and appends one `excluded` issue whose detail is the
original, pre-correction transcription. -/
theorem mapping_failure_is_caught (mapper : Mapper) (t : Term)
    (hm : mapper (ipa_code_corrections t.IPA) = none) :
    convert_ipa_2_espeak_phoneme mapper t.IPA = "failed".toList ∧
      writeTerm mapper t = (none, [⟨t.label, t.IPA, "excluded".toList⟩]) := by
  have hconv : convert_ipa_2_espeak_phoneme mapper t.IPA = "failed".toList := by
    rw [convert_eq, hm]
  refine ⟨hconv, ?_⟩
  simp only [writeTerm, hconv]
  simp

/-- A mapper that fails on every input. -/
def mapperFail : Mapper := fun _ => none

/-- C6 (witness): a failing mapper leads to the `failed` sentinel and an
`excluded` issue carrying the raw transcription `xy`. -/
theorem mapping_failure_is_caught_witness :
    convert_ipa_2_espeak_phoneme mapperFail "xy".toList = "failed".toList ∧
      writeTerm mapperFail ⟨"(a b)".toList, [], "xy".toList⟩ =
        (none, [⟨"(a b)".toList, "xy".toList, "excluded".toList⟩]) :=
  mapping_failure_is_caught mapperFail ⟨"(a b)".toList, [], "xy".toList⟩ (by decide)

/-- C8: an entry whose transcription is empty gives rise to no
primary-output line; one issue with detail `not available` and status
`excluded` is appended. The hypothesis `hm` reflects the behaviour of the
external Kirshenbaum mapper, which maps the empty string to the empty
symbol list without raising. -/
theorem empty_transcription_excluded (mapper : Mapper) (t : Term)
    (hipa : t.IPA = []) (hm : mapper [] = some []) :
    writeTerm mapper t =
      (none, [⟨t.label, "not available".toList, "excluded".toList⟩]) := by
  have hcorr : ipa_code_corrections ([] : Str) = [] := by decide
  have hconv : convert_ipa_2_espeak_phoneme mapper t.IPA = [] := by
    rw [convert_eq, hipa, hcorr, hm]
    decide
  simp only [writeTerm, hconv]
  simp

/-- A mapper that succeeds with the empty output exactly on the empty
input. -/
def mapperEmpty : Mapper := fun s => if s = [] then some [] else none

/-- C8 (witness): the empty transcription of the `tiramisu` entry is
logged as `not available` and excluded. -/
theorem empty_transcription_excluded_witness :
    writeTerm mapperEmpty ⟨"tiramisu".toList, [], []⟩ =
      (none, [⟨"tiramisu".toList, "not available".toList, "excluded".toList⟩]) :=
  empty_transcription_excluded mapperEmpty ⟨"tiramisu".toList, [], []⟩ rfl (by decide)

end EspeakNG
